import Mathlib

/-!
Verification of the face-door web dashboard (`web_dashboard.py`).

The module is a Flask app with routes `/`, `/logs`, `/users`, `/register`,
`/register_user`, `/add_user`, `/delete_user/<username>` plus two helpers
(`generate_single_user_encoding`, `read_access_logs`, `get_registered_users`).
We embed the module shallowly:

* Python strings become `Str := List Char`; filenames are flat strings.
* The `known_faces` directory becomes a list of named files with contents.
* External collaborators (`base64.b64decode`, PIL + `face_recognition`,
  `db_manager`) become an `Env` record of oracles; an oracle returning
  `Except.error` models the Python call raising an exception.
* Every handler returns its response together with the updated filesystem,
  the updated database-row list and a trace of external calls, so that
  claims about "no file written / encoder never called / one db insert"
  can be stated exactly.  A handler whose response is `Except.error` models
  an exception escaping the handler (no `try`/`except` around it).
-/

set_option autoImplicit false

namespace Dashboard

/-- Python strings, modelled as lists of characters. -/
abbrev Str := List Char

/-- `s.startswith(p)` on Python strings. -/
def pyStartsWith (p s : Str) : Bool := p.isPrefixOf s

/-- `s.endswith(p)` on Python strings. -/
def pyEndsWith (p s : Str) : Bool := p.isSuffixOf s

/-- `s.split(c)` for a one-character separator: always returns a non-empty
list of the chunks between occurrences of `c`. -/
def splitOnChar (c : Char) : Str → List Str
  | [] => [[]]
  | x :: xs =>
    match splitOnChar c xs with
    | [] => [[]]
    | h :: t => if x == c then [] :: h :: t else (x :: h) :: t

/-- `sep.join(parts)` on Python strings. -/
def joinSep (sep : Str) : List Str → Str
  | [] => []
  | [s] => s
  | s :: t :: rest => s ++ sep ++ joinSep sep (t :: rest)

/-- Fuel-driven worker for `pyReplace`: scans left to right, replacing each
non-overlapping occurrence of `pat` by `rep`, exactly as Python
`str.replace` does for a non-empty pattern.  The fuel is an upper bound on
the number of characters still to be consumed. -/
def pyReplaceFuel (pat rep : Str) : Nat → Str → Str
  | _, [] => []
  | 0, s => s
  | fuel + 1, c :: rest =>
    if !pat.isEmpty && pat.isPrefixOf (c :: rest) then
      rep ++ pyReplaceFuel pat rep fuel ((c :: rest).drop pat.length)
    else
      c :: pyReplaceFuel pat rep fuel rest

/-- Python `s.replace(pat, rep)` (all occurrences, left to right). -/
def pyReplace (pat rep s : Str) : Str := pyReplaceFuel pat rep s.length s

/-- The filename suffix `".jpg"`. -/
def jpgE : Str := ".jpg".data

/-- The filename suffix `"_encoding.npy"`. -/
def encE : Str := "_encoding.npy".data

/-- The filename suffix `"_1.jpg"`. -/
def oneJpgE : Str := "_1.jpg".data

/-- The underscore character used by the filename convention. -/
def usC : Char := '_'

/-- The data-URL marker `"data:image"`. -/
def dataImgE : Str := "data:image".data

/-- The sentinel `"N/A"` used for missing person names. -/
def naE : Str := "N/A".data

/-- Decoded image bytes (`base64.b64decode` output). -/
abbrev Bytes := List Nat

/-- A face encoding as returned by `face_recognition.face_encodings`. -/
abbrev Encoding := List Int

/-- Contents of a file in the `known_faces` directory. -/
inductive Content where
  | img (b : Bytes)
  | enc (e : Encoding)
  | other
deriving DecidableEq

/-- A file in the `known_faces` directory. -/
structure File where
  name : Str
  content : Content
deriving DecidableEq

/-- `os.listdir(KNOWN_FACES_DIR)`. -/
def listdir (fs : List File) : List Str := fs.map (·.name)

/-- `os.path.exists` on a file of the directory. -/
def fsExists (fs : List File) (n : Str) : Bool := fs.any (fun f => f.name == n)

/-- Reading a file of the directory. -/
def fsRead (fs : List File) (n : Str) : Option Content :=
  (fs.find? (fun f => f.name == n)).map (·.content)

/-- `open(path, "wb")` followed by a full write: overwrite in place, or
append a fresh file at the end of the directory. -/
def fsWrite (fs : List File) (n : Str) (c : Content) : List File :=
  match fs with
  | [] => [⟨n, c⟩]
  | f :: rest => if f.name == n then ⟨n, c⟩ :: rest else f :: fsWrite rest n c

/-- `os.remove` on a file of the directory. -/
def fsRemove (fs : List File) (n : Str) : List File :=
  fs.filter (fun f => !(f.name == n))

/-- One observable call to an external collaborator. -/
inductive Effect where
  | fileWrite (n : Str)
  | fileRemove (n : Str)
  | encoderCall (b : Bytes)
  | dbAddUser (n : Str)
  | dbDeleteUser (n : Str)
deriving DecidableEq

/-- Response status of the JSON endpoints. -/
inductive Status where
  | success
  | error
deriving DecidableEq

/-- A JSON response body `{status, message}`. -/
structure Resp where
  status : Status
  message : Str
deriving DecidableEq

/-- A row of `db_manager.get_all_users()`:
`(id, name, created_at, last_seen, access_count)`. -/
structure UserRow where
  id : Nat
  name : Str
  created_at : Option Str
  last_seen : Option Str
  access_count : Nat
deriving DecidableEq

/-- A row of `db_manager.get_recent_access_logs(100)`:
`(id, timestamp, event_type, person_name)`. -/
structure LogRow where
  id : Nat
  timestamp : Str
  event_type : Str
  person_name : Option Str
deriving DecidableEq

/-- One entry of the merged user listing built by `get_registered_users`. -/
structure UserEntry where
  name : Str
  trained : Bool
  created_at : Option Str
  last_seen : Option Str
  access_count : Nat
deriving DecidableEq

/-- One entry of the `/logs` response. -/
structure LogEntry where
  timestamp : Str
  event : Str
  person : Str
deriving DecidableEq

/-- The external collaborators.  An `Except.error` result models the
corresponding Python call raising an exception; `dbAddErr`/`dbDeleteErr`
being `some e` models `db_manager.add_user`/`delete_user` raising `e`. -/
structure Env where
  b64decode : Str → Except Str Bytes
  faceEncodings : Bytes → Except Str (List Encoding)
  dbAddErr : Option Str
  dbDeleteErr : Option Str
  dbUsers : Except Str (List UserRow)
  dbLogs : Except Str (List LogRow)

/-- Result of a mutating handler: the response (`Except.error` would mean an
exception escaped the handler), the directory, the database rows written by
`add_user`, and the trace of external calls. -/
structure HOut where
  resp : Except Str Resp
  fs : List File
  db : List Str
  trace : List Effect

/-- Result of `generate_single_user_encoding`. -/
structure GOut where
  ok : Bool
  fs : List File
  trace : List Effect

/-- The duplicate-name check shared by `register_user`, `add_user` and
`delete_user`: `f.startswith(name + "_") and (f.endswith(".jpg") or
f.endswith("_encoding.npy"))`. -/
def matchFile (name : Str) (f : Str) : Bool :=
  pyStartsWith (name ++ [usC]) f && (pyEndsWith jpgE f || pyEndsWith encE f)

/-- `generate_single_user_encoding(name)` (web_dashboard.py lines 99-144):
loads `<name>_1.jpg`, runs the PIL + `face_recognition` pipeline on it and,
given at least one encoding, saves the first one as `<name>_encoding.npy`.
A non-image file or a pipeline exception yields `False`; so does an image
with zero faces. -/
def generate_single_user_encoding (env : Env) (fs : List File) (name : Str) : GOut :=
  let image_file := name ++ oneJpgE
  if !(fsExists fs image_file) then ⟨false, fs, []⟩
  else
    match fsRead fs image_file with
    | some (Content.img b) =>
      match env.faceEncodings b with
      | Except.error _ => ⟨false, fs, [Effect.encoderCall b]⟩
      | Except.ok [] => ⟨false, fs, [Effect.encoderCall b]⟩
      | Except.ok (e :: _) =>
        let encoding_path := name ++ encE
        ⟨true, fsWrite fs encoding_path (Content.enc e),
          [Effect.encoderCall b, Effect.fileWrite encoding_path]⟩
    | _ => ⟨false, fs, []⟩

/-- The data-URL stripping of `register_user` (lines 71-73):
`image_data.split(",")[1]` when the string starts with `"data:image"`;
`none` models the `IndexError` when there is no second chunk. -/
def extractPayload (image_data : Str) : Option Str :=
  if pyStartsWith dataImgE image_data then (splitOnChar ',' image_data)[1]?
  else some image_data

/-- `register_user` (web_dashboard.py lines 46-97). -/
def register_user (env : Env) (fs : List File) (db : List Str)
    (name image_data : Str) : HOut :=
  if name = [] then
    ⟨Except.ok ⟨Status.error, "User name is required".data⟩, fs, db, []⟩
  else if image_data = [] then
    ⟨Except.ok ⟨Status.error, "Face image is required".data⟩, fs, db, []⟩
  else if ((listdir fs).filter (matchFile name)) ≠ [] then
    ⟨Except.ok ⟨Status.error,
      "User ".data ++ name ++ " already exists. Please choose a different name or delete the existing user.".data⟩,
      fs, db, []⟩
  else
    match extractPayload image_data with
    | none =>
      ⟨Except.ok ⟨Status.error, "Failed to save face image: list index out of range".data⟩,
        fs, db, []⟩
    | some payload =>
      match env.b64decode payload with
      | Except.error e =>
        ⟨Except.ok ⟨Status.error, "Failed to save face image: ".data ++ e⟩, fs, db, []⟩
      | Except.ok image_bytes =>
        if (generate_single_user_encoding env
            (fsWrite fs (name ++ oneJpgE) (Content.img image_bytes)) name).ok then
          match env.dbAddErr with
          | some e =>
            ⟨Except.ok ⟨Status.error, "Failed to save face image: ".data ++ e⟩,
              (generate_single_user_encoding env
                (fsWrite fs (name ++ oneJpgE) (Content.img image_bytes)) name).fs, db,
              Effect.fileWrite (name ++ oneJpgE) ::
                (generate_single_user_encoding env
                  (fsWrite fs (name ++ oneJpgE) (Content.img image_bytes)) name).trace
                ++ [Effect.dbAddUser name]⟩
          | none =>
            ⟨Except.ok ⟨Status.success,
              "User ".data ++ name ++ " registered successfully with face capture.".data⟩,
              (generate_single_user_encoding env
                (fsWrite fs (name ++ oneJpgE) (Content.img image_bytes)) name).fs,
              db ++ [name],
              Effect.fileWrite (name ++ oneJpgE) ::
                (generate_single_user_encoding env
                  (fsWrite fs (name ++ oneJpgE) (Content.img image_bytes)) name).trace
                ++ [Effect.dbAddUser name]⟩
        else
          if fsExists (generate_single_user_encoding env
              (fsWrite fs (name ++ oneJpgE) (Content.img image_bytes)) name).fs
              (name ++ oneJpgE) then
            ⟨Except.ok ⟨Status.error,
              "Failed to generate face encoding. Please ensure a clear face image with good lighting.".data⟩,
              fsRemove (generate_single_user_encoding env
                (fsWrite fs (name ++ oneJpgE) (Content.img image_bytes)) name).fs
                (name ++ oneJpgE), db,
              Effect.fileWrite (name ++ oneJpgE) ::
                (generate_single_user_encoding env
                  (fsWrite fs (name ++ oneJpgE) (Content.img image_bytes)) name).trace
                ++ [Effect.fileRemove (name ++ oneJpgE)]⟩
          else
            ⟨Except.ok ⟨Status.error,
              "Failed to generate face encoding. Please ensure a clear face image with good lighting.".data⟩,
              (generate_single_user_encoding env
                (fsWrite fs (name ++ oneJpgE) (Content.img image_bytes)) name).fs, db,
              Effect.fileWrite (name ++ oneJpgE) ::
                (generate_single_user_encoding env
                  (fsWrite fs (name ++ oneJpgE) (Content.img image_bytes)) name).trace⟩

/-- `add_user` (web_dashboard.py lines 146-171). -/
def add_user (env : Env) (fs : List File) (db : List Str) (name : Str) : HOut :=
  if name = [] then
    ⟨Except.ok ⟨Status.error, "User name is required".data⟩, fs, db, []⟩
  else if ((listdir fs).filter (matchFile name)) ≠ [] then
    ⟨Except.ok ⟨Status.error, "User ".data ++ name ++ " already exists".data⟩, fs, db, []⟩
  else
    match env.dbAddErr with
    | some e =>
      ⟨Except.ok ⟨Status.error, "Failed to add user: ".data ++ e⟩, fs, db,
        [Effect.dbAddUser name]⟩
    | none =>
      ⟨Except.ok ⟨Status.success,
        "User ".data ++ name ++ " added successfully. Please capture face image for recognition.".data⟩,
        fs, db ++ [name], [Effect.dbAddUser name]⟩

/-- `delete_user` (web_dashboard.py lines 173-189): remove every file whose
name matches the `<username>_` prefix convention, then delete the database
row; an exception raised by `db_manager.delete_user` is caught and turned
into an error response. -/
def delete_user (env : Env) (fs : List File) (db : List Str) (username : Str) : HOut :=
  match env.dbDeleteErr with
  | some e =>
    ⟨Except.ok ⟨Status.error, e⟩,
      fs.filter (fun f => !(matchFile username f.name)), db,
      ((listdir fs).filter (matchFile username)).map Effect.fileRemove
        ++ [Effect.dbDeleteUser username]⟩
  | none =>
    ⟨Except.ok ⟨Status.success, "User ".data ++ username ++ " deleted".data⟩,
      fs.filter (fun f => !(matchFile username f.name)),
      db.filter (fun n => !(n == username)),
      ((listdir fs).filter (matchFile username)).map Effect.fileRemove
        ++ [Effect.dbDeleteUser username]⟩

/-- Python `x or "N/A"` on a nullable string column: the sentinel replaces
both `None` and any falsy (empty) string. -/
def pyOrStr (x : Option Str) (d : Str) : Str :=
  match x with
  | none => d
  | some s => if s.isEmpty then d else s

/-- `read_access_logs` (web_dashboard.py lines 191-201), applied to the rows
returned by `db_manager.get_recent_access_logs(100)`. -/
def read_access_logs (db_logs : List LogRow) : List LogEntry :=
  db_logs.foldl
    (fun logs r => logs ++ [⟨r.timestamp, r.event_type, pyOrStr r.person_name naE⟩]) []

/-- Membership test of the Python `user_dict`. -/
def dictMem (d : List UserEntry) (k : Str) : Bool := d.any (fun e => e.name == k)

/-- Lookup in the Python `user_dict`. -/
def dictFind (d : List UserEntry) (k : Str) : Option UserEntry :=
  d.find? (fun e => e.name == k)

/-- `user_dict[e.name] = e`: replace in place, or append at the end,
following Python dict insertion-order semantics. -/
def dictSet (d : List UserEntry) (e : UserEntry) : List UserEntry :=
  match d with
  | [] => [e]
  | x :: rest => if x.name == e.name then e :: rest else x :: dictSet rest e

/-- `user_dict[k]["trained"] = t`. -/
def dictSetTrained (d : List UserEntry) (k : Str) (t : Bool) : List UserEntry :=
  d.map (fun x => if x.name == k then { x with trained := t } else x)

/-- The user entry built from a database row (lines 211-217). -/
def rowEntry (r : UserRow) : UserEntry :=
  ⟨r.name, false, r.created_at, r.last_seen, r.access_count⟩

/-- The body of the file loop of `get_registered_users` (lines 223-259),
processing one directory entry against the accumulated `user_dict`. -/
def listStep (encoding_files : List Str) (d : List UserEntry) (file : Str) : List UserEntry :=
  if pyEndsWith jpgE file && file.contains usC && !(pyStartsWith ['.'] file) then
    if (splitOnChar usC file).length ≥ 2 then
      if dictMem d (joinSep [usC] (splitOnChar usC file).dropLast) then
        dictSetTrained d (joinSep [usC] (splitOnChar usC file).dropLast)
          (encoding_files.contains (joinSep [usC] (splitOnChar usC file).dropLast ++ encE))
      else
        dictSet d ⟨joinSep [usC] (splitOnChar usC file).dropLast,
          encoding_files.contains (joinSep [usC] (splitOnChar usC file).dropLast ++ encE),
          none, none, 0⟩
    else d
  else if pyEndsWith encE file then
    if !(dictMem d (pyReplace encE [] file)) then
      dictSet d ⟨pyReplace encE [] file, true, none, none, 0⟩
    else dictSetTrained d (pyReplace encE [] file) true
  else d

/-- `get_registered_users` (web_dashboard.py lines 203-263), applied to the
rows of `db_manager.get_all_users()` and the directory listing. -/
def get_registered_users (rows : List UserRow) (files : List Str) : List UserEntry :=
  files.foldl (listStep (files.filter (pyEndsWith encE)))
    (rows.foldl (fun d r => dictSet d (rowEntry r)) [])

/-- The `/` route (lines 23-27): no `try`/`except`, so an exception raised
by `db_manager.get_all_users()` propagates out of the handler. -/
def index_route (env : Env) (fs : List File) : Except Str (List UserEntry) :=
  match env.dbUsers with
  | Except.error e => Except.error e
  | Except.ok rows => Except.ok (get_registered_users rows (listdir fs))

/-- The `/users` route (lines 35-39): same shape as `/`. -/
def users_route (env : Env) (fs : List File) : Except Str (List UserEntry) :=
  match env.dbUsers with
  | Except.error e => Except.error e
  | Except.ok rows => Except.ok (get_registered_users rows (listdir fs))

/-- The `/logs` route (lines 29-33): no `try`/`except` either. -/
def logs_route (env : Env) : Except Str (List LogEntry) :=
  match env.dbLogs with
  | Except.error e => Except.error e
  | Except.ok rows => Except.ok (read_access_logs rows)

/-! ### String lemmas -/

theorem splitOnChar_ne_nil (c : Char) (s : Str) : splitOnChar c s ≠ [] := by
  cases s with
  | nil => simp [splitOnChar]
  | cons x xs =>
    simp only [splitOnChar]
    rcases hx : splitOnChar c xs with _ | ⟨hd, tl⟩
    · simp
    · by_cases hxc : (x == c) = true
      · simp [hxc]
      · simp [hxc]

theorem splitOnChar_length_pos (c : Char) (s : Str) : 0 < (splitOnChar c s).length :=
  List.length_pos.mpr (splitOnChar_ne_nil c s)

theorem splitOnChar_append_cons (c : Char) (s t : Str) :
    splitOnChar c (s ++ c :: t) = splitOnChar c s ++ splitOnChar c t := by
  induction s with
  | nil =>
    simp only [List.nil_append, splitOnChar]
    rcases ht : splitOnChar c t with _ | ⟨hd, tl⟩
    · exact absurd ht (splitOnChar_ne_nil c t)
    · simp
  | cons x xs ih =>
    rcases hx : splitOnChar c xs with _ | ⟨hd, tl⟩
    · exact absurd hx (splitOnChar_ne_nil c xs)
    · show splitOnChar c (x :: (xs ++ c :: t)) = _
      rw [show splitOnChar c (x :: (xs ++ c :: t)) =
        (match splitOnChar c (xs ++ c :: t) with
         | [] => [[]]
         | h :: t2 => if x == c then [] :: h :: t2 else (x :: h) :: t2) from rfl]
      rw [ih, hx]
      by_cases hxc : (x == c) = true
      · simp [splitOnChar, hx, hxc]
      · simp [splitOnChar, hx, hxc]

theorem splitOnChar_no_sep (c : Char) (t : Str) (h : ∀ x ∈ t, ¬(x == c) = true) :
    splitOnChar c t = [t] := by
  induction t with
  | nil => rfl
  | cons x xs ih =>
    have hx : ¬(x == c) = true := h x (List.mem_cons_self x xs)
    have hxs : splitOnChar c xs = [xs] := ih (fun y hy => h y (List.mem_cons_of_mem x hy))
    simp only [splitOnChar, hxs]
    simp [hx]

theorem joinSep_splitOnChar (c : Char) (s : Str) :
    joinSep [c] (splitOnChar c s) = s := by
  induction s with
  | nil => rfl
  | cons x xs ih =>
    rcases hx : splitOnChar c xs with _ | ⟨hd, tl⟩
    · exact absurd hx (splitOnChar_ne_nil c xs)
    · rw [hx] at ih
      rw [show splitOnChar c (x :: xs) =
        (match splitOnChar c xs with
         | [] => [[]]
         | h :: t2 => if x == c then [] :: h :: t2 else (x :: h) :: t2) from rfl]
      rw [hx]
      by_cases hxc : (x == c) = true
      · have hxc2 : x = c := by simpa using hxc
        rcases tl with _ | ⟨t1, ts⟩
        · simp only [joinSep] at ih
          simp [hxc, hxc2, joinSep, ih]
        · simp only [joinSep] at ih
          simp [hxc, hxc2, joinSep, ← ih, List.append_assoc]
      · rcases tl with _ | ⟨t1, ts⟩
        · simp only [joinSep] at ih
          simp [hxc, joinSep, ih]
        · simp only [joinSep] at ih
          simp [hxc, joinSep, ← ih, List.append_assoc]

theorem oneJpg_decomp : oneJpgE = usC :: "1.jpg".data := by decide

theorem splitOnChar_name_jpg (name : Str) :
    splitOnChar usC (name ++ oneJpgE) = splitOnChar usC name ++ ["1.jpg".data] := by
  rw [oneJpg_decomp, splitOnChar_append_cons]
  rfl

/-- The filename round trip of the listing: stripping the final `_`-separated
token from `<name>_1.jpg` recovers `name`, for every `name`, underscores
included. -/
theorem parseJpg_roundtrip (name : Str) :
    joinSep [usC] (splitOnChar usC (name ++ oneJpgE)).dropLast = name := by
  rw [splitOnChar_name_jpg, List.dropLast_concat, joinSep_splitOnChar]

theorem splitOnChar_name_jpg_length (name : Str) :
    2 ≤ (splitOnChar usC (name ++ oneJpgE)).length := by
  rw [splitOnChar_name_jpg, List.length_append]
  have := splitOnChar_length_pos usC name
  simp only [List.length_cons, List.length_nil]
  omega

theorem pyEndsWith_iff (p s : Str) : pyEndsWith p s = true ↔ p <:+ s :=
  List.isSuffixOf_iff_suffix

theorem pyStartsWith_iff (p s : Str) : pyStartsWith p s = true ↔ p <+: s :=
  List.isPrefixOf_iff_prefix

theorem pyEndsWith_append (p s t : Str) (h : pyEndsWith p t = true) :
    pyEndsWith p (s ++ t) = true := by
  rw [pyEndsWith_iff] at h ⊢
  exact h.trans (List.suffix_append s t)

theorem pyStartsWith_append (p s t : Str) (h : pyStartsWith p s = true) :
    pyStartsWith p (s ++ t) = true := by
  rw [pyStartsWith_iff] at h ⊢
  exact h.trans (List.prefix_append s t)

theorem suffix_eq_of_length {p q s : Str} (hp : p <:+ s) (hq : q <:+ s)
    (h : p.length = q.length) : p = q := by
  obtain ⟨a, ha⟩ := hp
  obtain ⟨b, hb⟩ := hq
  have hs : a ++ p = b ++ q := ha.trans hb.symm
  have hlen : a.length = b.length := by
    have hl := congrArg List.length hs
    simp only [List.length_append] at hl
    omega
  exact (List.append_inj hs hlen).2

/-- A filename ending in `"_encoding.npy"` does not end in `".jpg"`. -/
theorem enc_not_jpg {f : Str} (h : pyEndsWith encE f = true) :
    ¬ pyEndsWith jpgE f = true := by
  intro hj
  have h1 : ".npy".data <:+ f :=
    (show ".npy".data <:+ encE by decide).trans ((pyEndsWith_iff _ _).mp h)
  have h2 : jpgE <:+ f := (pyEndsWith_iff _ _).mp hj
  exact absurd (suffix_eq_of_length h1 h2 (by decide)) (by decide)

theorem enc_decomp : encE = usC :: "encoding.npy".data := by decide

theorem matchFile_img (name : Str) : matchFile name (name ++ oneJpgE) = true := by
  unfold matchFile
  have h1 : pyStartsWith (name ++ [usC]) (name ++ oneJpgE) = true := by
    have : name ++ oneJpgE = (name ++ [usC]) ++ "1.jpg".data := by
      rw [oneJpg_decomp]; simp
    rw [this]
    exact pyStartsWith_append _ _ _ ((pyStartsWith_iff _ _).mpr (List.prefix_refl _))
  have h2 : pyEndsWith jpgE (name ++ oneJpgE) = true :=
    pyEndsWith_append _ _ _ (by decide)
  simp [h1, h2]

theorem matchFile_enc (name : Str) : matchFile name (name ++ encE) = true := by
  unfold matchFile
  have h1 : pyStartsWith (name ++ [usC]) (name ++ encE) = true := by
    have : name ++ encE = (name ++ [usC]) ++ "encoding.npy".data := by
      rw [enc_decomp]; simp
    rw [this]
    exact pyStartsWith_append _ _ _ ((pyStartsWith_iff _ _).mpr (List.prefix_refl _))
  have h2 : pyEndsWith encE (name ++ encE) = true :=
    pyEndsWith_append _ _ _ (by decide)
  simp [h1, h2]

theorem img_ne_enc (name : Str) : name ++ oneJpgE ≠ name ++ encE := by
  intro h
  exact absurd (List.append_cancel_left h) (by decide)

/-! ### Filesystem lemmas -/

theorem fsWrite_absent {fs : List File} {n : Str} (c : Content)
    (h : ∀ f ∈ fs, f.name ≠ n) : fsWrite fs n c = fs ++ [⟨n, c⟩] := by
  induction fs with
  | nil => rfl
  | cons f rest ih =>
    have hf : f.name ≠ n := h f (List.mem_cons_self f rest)
    simp only [fsWrite]
    rw [if_neg (by simpa using hf), ih (fun g hg => h g (List.mem_cons_of_mem f hg))]
    simp

theorem fsExists_append_self (fs : List File) (n : Str) (c : Content) :
    fsExists (fs ++ [⟨n, c⟩]) n = true := by
  simp [fsExists, List.any_append]

theorem fsRead_append_absent {fs : List File} {n : Str} (c : Content)
    (h : ∀ f ∈ fs, f.name ≠ n) : fsRead (fs ++ [⟨n, c⟩]) n = some c := by
  induction fs with
  | nil => simp [fsRead, List.find?]
  | cons f rest ih =>
    have hf : f.name ≠ n := h f (List.mem_cons_self f rest)
    have := ih (fun g hg => h g (List.mem_cons_of_mem f hg))
    simp only [fsRead, List.cons_append, List.find?] at this ⊢
    rw [show (f.name == n) = false by simpa using hf]
    exact this

theorem fsRemove_append_absent {fs : List File} {n : Str} (c : Content)
    (h : ∀ f ∈ fs, f.name ≠ n) : fsRemove (fs ++ [⟨n, c⟩]) n = fs := by
  unfold fsRemove
  rw [List.filter_append]
  have h1 : fs.filter (fun f => !(f.name == n)) = fs :=
    List.filter_eq_self.mpr (fun f hf => by simpa using h f hf)
  have h2 : List.filter (fun f => !(f.name == n)) [(⟨n, c⟩ : File)] = [] := by
    simp [List.filter]
  rw [h1, h2, List.append_nil]

theorem listdir_append (fs gs : List File) :
    listdir (fs ++ gs) = listdir fs ++ listdir gs := by
  simp [listdir]

/-! ### Dictionary lemmas -/

theorem dictFind_name {d : List UserEntry} {k : Str} {e : UserEntry}
    (h : dictFind d k = some e) : e.name = k := by
  have := List.find?_some h
  simpa using this

theorem dictMem_iff_isSome (d : List UserEntry) (k : Str) :
    dictMem d k = true ↔ (dictFind d k).isSome = true := by
  simp [dictMem, dictFind, List.any_eq_true, List.find?_isSome]

theorem dictFind_cons_pos {x : UserEntry} {k : Str} (d : List UserEntry)
    (h : (x.name == k) = true) : dictFind (x :: d) k = some x := by
  unfold dictFind
  simp only [List.find?_cons, h]

theorem dictFind_cons_neg {x : UserEntry} {k : Str} (d : List UserEntry)
    (h : (x.name == k) = false) : dictFind (x :: d) k = dictFind d k := by
  unfold dictFind
  simp only [List.find?_cons, h]

theorem dictFind_dictSet_self (d : List UserEntry) (e : UserEntry) :
    dictFind (dictSet d e) e.name = some e := by
  induction d with
  | nil => exact dictFind_cons_pos [] (by simp)
  | cons x rest ih =>
    simp only [dictSet]
    by_cases hx : (x.name == e.name) = true
    · rw [if_pos hx]
      exact dictFind_cons_pos rest (by simp)
    · rw [if_neg hx]
      rw [dictFind_cons_neg _ (by simpa using hx)]
      exact ih

theorem dictFind_dictSet_other {k : Str} {e : UserEntry} (hk : k ≠ e.name)
    (d : List UserEntry) : dictFind (dictSet d e) k = dictFind d k := by
  have hek : (e.name == k) = false := by simp [Ne.symm hk]
  induction d with
  | nil =>
    unfold dictSet
    rw [dictFind_cons_neg _ hek]
  | cons x rest ih =>
    simp only [dictSet]
    by_cases hx : (x.name == e.name) = true
    · have hxe : x.name = e.name := by simpa using hx
      rw [if_pos hx]
      rw [dictFind_cons_neg _ hek, dictFind_cons_neg _ (by simp [hxe, Ne.symm hk])]
    · rw [if_neg hx]
      by_cases hxk : (x.name == k) = true
      · rw [dictFind_cons_pos _ hxk, dictFind_cons_pos _ hxk]
      · rw [dictFind_cons_neg _ (by simpa using hxk),
          dictFind_cons_neg _ (by simpa using hxk)]
        exact ih

theorem dictFind_dictSetTrained_other {k u : Str} (hk : k ≠ u)
    (d : List UserEntry) (t : Bool) :
    dictFind (dictSetTrained d u t) k = dictFind d k := by
  induction d with
  | nil => rfl
  | cons x rest ih =>
    simp only [dictSetTrained, List.map_cons] at ih ⊢
    by_cases hx : (x.name == u) = true
    · have hxu : x.name = u := by simpa using hx
      rw [if_pos hx]
      rw [dictFind_cons_neg _ (by simp [hxu, Ne.symm hk]),
        dictFind_cons_neg _ (by simp [hxu, Ne.symm hk])]
      exact ih
    · rw [if_neg hx]
      by_cases hxk : (x.name == k) = true
      · rw [dictFind_cons_pos _ hxk, dictFind_cons_pos _ hxk]
      · rw [dictFind_cons_neg _ (by simpa using hxk),
          dictFind_cons_neg _ (by simpa using hxk)]
        exact ih

theorem dictFind_dictSetTrained_self (d : List UserEntry) (u : Str) (t : Bool) :
    dictFind (dictSetTrained d u t) u =
      (dictFind d u).map (fun e => { e with trained := t }) := by
  induction d with
  | nil => rfl
  | cons x rest ih =>
    simp only [dictSetTrained, List.map_cons] at ih ⊢
    by_cases hx : (x.name == u) = true
    · rw [if_pos hx]
      rw [dictFind_cons_pos _ (by simpa using hx), dictFind_cons_pos _ hx]
      rfl
    · rw [if_neg hx]
      rw [dictFind_cons_neg _ (by simpa using hx),
        dictFind_cons_neg _ (by simpa using hx)]
      exact ih

/-! ### Characterising the database fold of `get_registered_users` -/

/-- The last row of the database listing carrying a given name: under
Python-dict semantics, the row whose fields survive in `user_dict`. -/
def lastRowWith (n : Str) : List UserRow → Option UserRow
  | [] => none
  | r :: rest =>
    match lastRowWith n rest with
    | some r2 => some r2
    | none => if r.name == n then some r else none

theorem rowsFold_find (n : Str) (rows : List UserRow) :
    ∀ d : List UserEntry,
      dictFind (rows.foldl (fun d r => dictSet d (rowEntry r)) d) n =
        match lastRowWith n rows with
        | some r => some (rowEntry r)
        | none => dictFind d n := by
  induction rows with
  | nil => intro d; rfl
  | cons r rest ih =>
    intro d
    simp only [List.foldl_cons, lastRowWith]
    rw [ih (dictSet d (rowEntry r))]
    cases hrest : lastRowWith n rest with
    | some r2 => rfl
    | none =>
      by_cases hr : (r.name == n) = true
      · rw [if_pos hr]
        have hn : n = r.name := (eq_of_beq hr).symm
        subst hn
        exact dictFind_dictSet_self d (rowEntry r)
      · rw [if_neg hr]
        exact dictFind_dictSet_other
          (fun he => hr (by simp only [rowEntry] at he; simp [he])) d

/-! ### Characterising the file fold of `get_registered_users` -/

/-- The trained value that processing one directory entry writes to the
user-dictionary key `n`, or `none` when the entry leaves that key alone.
Mirrors the two branches of `listStep`. -/
def touchVal (encoding_files : List Str) (n : Str) (file : Str) : Option Bool :=
  if pyEndsWith jpgE file && file.contains usC && !(pyStartsWith ['.'] file) then
    if (splitOnChar usC file).length ≥ 2 then
      if joinSep [usC] (splitOnChar usC file).dropLast == n then
        some (encoding_files.contains (n ++ encE))
      else none
    else none
  else if pyEndsWith encE file then
    if pyReplace encE [] file == n then some true else none
  else none

/-- The last trained value written to key `n` while folding over the
directory listing. -/
def lastTouch (encoding_files : List Str) (n : Str) : List Str → Option Bool
  | [] => none
  | f :: rest =>
    match lastTouch encoding_files n rest with
    | some t => some t
    | none => touchVal encoding_files n f

/-- The dictionary entry stored at key `n` after a touch with value `t`,
given the entry previously stored there. -/
def entryAfterTouch (n : Str) (t : Bool) (o : Option UserEntry) : UserEntry :=
  match o with
  | some e => { e with trained := t }
  | none => ⟨n, t, none, none, 0⟩

theorem entryAfterTouch_idem (n : Str) (t t2 : Bool) (o : Option UserEntry) :
    entryAfterTouch n t (some (entryAfterTouch n t2 o)) = entryAfterTouch n t o := by
  cases o <;> rfl

theorem entryAfterTouch_name {d : List UserEntry} (n : Str) (t : Bool) :
    (entryAfterTouch n t (dictFind d n)).name = n := by
  cases h : dictFind d n with
  | none => rfl
  | some e => simpa [entryAfterTouch] using dictFind_name h

theorem listStep_find_none {encoding_files : List Str} {n file : Str}
    (h : touchVal encoding_files n file = none) (d : List UserEntry) :
    dictFind (listStep encoding_files d file) n = dictFind d n := by
  unfold touchVal at h
  unfold listStep
  by_cases hcond :
      (pyEndsWith jpgE file && file.contains usC && !(pyStartsWith ['.'] file)) = true
  · rw [if_pos hcond]
    rw [if_pos hcond] at h
    by_cases hlen : (splitOnChar usC file).length ≥ 2
    · rw [if_pos hlen]
      rw [if_pos hlen] at h
      by_cases hu : (joinSep [usC] (splitOnChar usC file).dropLast == n) = true
      · rw [if_pos hu] at h
        exact absurd h (by simp)
      · have hne : n ≠ joinSep [usC] (splitOnChar usC file).dropLast := by
          intro he
          exact hu (by simp [he])
        by_cases hmem : dictMem d (joinSep [usC] (splitOnChar usC file).dropLast) = true
        · rw [if_pos hmem]
          exact dictFind_dictSetTrained_other hne d _
        · rw [if_neg hmem]
          exact dictFind_dictSet_other hne d
    · rw [if_neg hlen]
  · rw [if_neg hcond]
    rw [if_neg hcond] at h
    by_cases henc : pyEndsWith encE file = true
    · rw [if_pos henc]
      rw [if_pos henc] at h
      by_cases hu : (pyReplace encE [] file == n) = true
      · rw [if_pos hu] at h
        exact absurd h (by simp)
      · have hne : n ≠ pyReplace encE [] file := by
          intro he
          exact hu (by simp [he])
        by_cases hmem : dictMem d (pyReplace encE [] file) = true
        · rw [if_neg (by simpa using hmem)]
          exact dictFind_dictSetTrained_other hne d _
        · rw [if_pos (by simpa using hmem)]
          exact dictFind_dictSet_other hne d
    · rw [if_neg henc]

theorem listStep_find_touch {encoding_files : List Str} {n file : Str} {t : Bool}
    (h : touchVal encoding_files n file = some t) (d : List UserEntry) :
    dictFind (listStep encoding_files d file) n =
      some (entryAfterTouch n t (dictFind d n)) := by
  unfold touchVal at h
  unfold listStep
  by_cases hcond :
      (pyEndsWith jpgE file && file.contains usC && !(pyStartsWith ['.'] file)) = true
  · rw [if_pos hcond]
    rw [if_pos hcond] at h
    by_cases hlen : (splitOnChar usC file).length ≥ 2
    · rw [if_pos hlen]
      rw [if_pos hlen] at h
      by_cases hu : (joinSep [usC] (splitOnChar usC file).dropLast == n) = true
      · rw [if_pos hu] at h
        have hun : joinSep [usC] (splitOnChar usC file).dropLast = n := by simpa using hu
        have ht : encoding_files.contains (n ++ encE) = t := by
          simpa using h
        rw [hun, ht]
        by_cases hmem : dictMem d n = true
        · rw [if_pos hmem]
          rw [dictFind_dictSetTrained_self d n t]
          rcases ho : dictFind d n with _ | e
          · exact absurd ((dictMem_iff_isSome d n).mp hmem) (by simp [ho])
          · simp [entryAfterTouch]
        · rw [if_neg hmem]
          have ho : dictFind d n = none := by
            rcases ho : dictFind d n with _ | e
            · rfl
            · exact absurd ((dictMem_iff_isSome d n).mpr (by simp [ho])) hmem
          rw [ho]
          exact dictFind_dictSet_self d ⟨n, t, none, none, 0⟩
      · rw [if_neg hu] at h
        exact absurd h (by simp)
    · rw [if_neg hlen] at h
      exact absurd h (by simp)
  · rw [if_neg hcond]
    rw [if_neg hcond] at h
    by_cases henc : pyEndsWith encE file = true
    · rw [if_pos henc]
      rw [if_pos henc] at h
      by_cases hu : (pyReplace encE [] file == n) = true
      · rw [if_pos hu] at h
        have hun : pyReplace encE [] file = n := by simpa using hu
        have ht : true = t := by
          simpa using h
        have ht2 := ht.symm
        subst ht2
        rw [hun]
        by_cases hmem : dictMem d n = true
        · rw [if_neg (by simpa using hmem)]
          rw [dictFind_dictSetTrained_self d n true]
          rcases ho : dictFind d n with _ | e
          · exact absurd ((dictMem_iff_isSome d n).mp hmem) (by simp [ho])
          · simp [entryAfterTouch]
        · rw [if_pos (by simpa using hmem)]
          have ho : dictFind d n = none := by
            rcases ho : dictFind d n with _ | e
            · rfl
            · exact absurd ((dictMem_iff_isSome d n).mpr (by simp [ho])) hmem
          rw [ho]
          exact dictFind_dictSet_self d ⟨n, true, none, none, 0⟩
      · rw [if_neg hu] at h
        exact absurd h (by simp)
    · rw [if_neg henc] at h
      exact absurd h (by simp)

theorem filesFold_find (encoding_files : List Str) (files : List Str) (n : Str) :
    ∀ d : List UserEntry,
      dictFind (files.foldl (listStep encoding_files) d) n =
        match lastTouch encoding_files n files with
        | none => dictFind d n
        | some t => some (entryAfterTouch n t (dictFind d n)) := by
  induction files with
  | nil => intro d; rfl
  | cons f rest ih =>
    intro d
    simp only [List.foldl_cons, lastTouch]
    rw [ih (listStep encoding_files d f)]
    cases hrest : lastTouch encoding_files n rest with
    | some t =>
      dsimp only
      cases hf : touchVal encoding_files n f with
      | none => rw [listStep_find_none hf]
      | some t2 => rw [listStep_find_touch hf, entryAfterTouch_idem]
    | none =>
      dsimp only
      cases hf : touchVal encoding_files n f with
      | none =>
        rw [listStep_find_none hf]
      | some t2 =>
        rw [listStep_find_touch hf]

theorem lastTouch_eq_none_iff (encoding_files : List Str) (n : Str) (files : List Str) :
    lastTouch encoding_files n files = none ↔
      ∀ f ∈ files, touchVal encoding_files n f = none := by
  induction files with
  | nil => simp [lastTouch]
  | cons f rest ih =>
    simp only [lastTouch]
    cases hrest : lastTouch encoding_files n rest with
    | some t =>
      simp only []
      constructor
      · intro h
        exact absurd h (by simp)
      · intro h
        exact absurd (ih.mpr (fun g hg => h g (List.mem_cons_of_mem f hg)))
          (by simp [hrest])
    | none =>
      simp only []
      constructor
      · intro h g hg
        rcases List.mem_cons.mp hg with hgf | hgr
        · exact hgf ▸ h
        · exact (ih.mp hrest) g hgr
      · intro h
        exact h f (List.mem_cons_self f rest)

/-! ### Names and de-duplication -/

/-- The keys of the user dictionary, in order. -/
def entryNames (d : List UserEntry) : List Str := d.map (fun e => e.name)

theorem entryNames_dictSetTrained (d : List UserEntry) (u : Str) (t : Bool) :
    entryNames (dictSetTrained d u t) = entryNames d := by
  unfold entryNames dictSetTrained
  rw [List.map_map]
  apply List.map_congr_left
  intro x _
  by_cases hx : x.name = u
  · simp [hx]
  · simp [hx]

theorem mem_entryNames_dictSet (d : List UserEntry) (e : UserEntry) (m : Str) :
    m ∈ entryNames (dictSet d e) ↔ m ∈ entryNames d ∨ m = e.name := by
  induction d with
  | nil => simp [dictSet, entryNames]
  | cons x rest ih =>
    simp only [dictSet]
    by_cases hx : (x.name == e.name) = true
    · have hxe : x.name = e.name := by simpa using hx
      rw [if_pos hx]
      simp only [entryNames, List.map_cons, List.mem_cons, hxe]
      tauto
    · rw [if_neg hx]
      simp only [entryNames, List.map_cons, List.mem_cons] at ih ⊢
      rw [or_assoc] at *
      tauto

theorem nodup_entryNames_dictSet (d : List UserEntry) (e : UserEntry)
    (h : (entryNames d).Nodup) : (entryNames (dictSet d e)).Nodup := by
  induction d with
  | nil => simp [dictSet, entryNames]
  | cons x rest ih =>
    simp only [entryNames, List.map_cons, List.nodup_cons] at h
    simp only [dictSet]
    by_cases hx : (x.name == e.name) = true
    · have hxe : x.name = e.name := by simpa using hx
      rw [if_pos hx]
      simp only [entryNames, List.map_cons, List.nodup_cons]
      exact ⟨by rw [← hxe]; exact h.1, h.2⟩
    · rw [if_neg hx]
      simp only [entryNames, List.map_cons, List.nodup_cons]
      refine ⟨fun hmem => ?_, ih h.2⟩
      rcases (mem_entryNames_dictSet rest e x.name).mp hmem with hm | hm
      · exact h.1 hm
      · exact hx (by simp [hm])

theorem nodup_entryNames_listStep (encoding_files : List Str) (d : List UserEntry)
    (file : Str) (h : (entryNames d).Nodup) :
    (entryNames (listStep encoding_files d file)).Nodup := by
  unfold listStep
  by_cases h1 :
      (pyEndsWith jpgE file && file.contains usC && !(pyStartsWith ['.'] file)) = true
  · rw [if_pos h1]
    by_cases h2 : (splitOnChar usC file).length ≥ 2
    · rw [if_pos h2]
      by_cases h3 : dictMem d (joinSep [usC] (splitOnChar usC file).dropLast) = true
      · rw [if_pos h3, entryNames_dictSetTrained]
        exact h
      · rw [if_neg h3]
        exact nodup_entryNames_dictSet _ _ h
    · rw [if_neg h2]
      exact h
  · rw [if_neg h1]
    by_cases h2 : pyEndsWith encE file = true
    · rw [if_pos h2]
      by_cases h3 : dictMem d (pyReplace encE [] file) = true
      · rw [if_neg (by simpa using h3), entryNames_dictSetTrained]
        exact h
      · rw [if_pos (by simpa using h3)]
        exact nodup_entryNames_dictSet _ _ h
    · rw [if_neg h2]
      exact h

theorem nodup_entryNames_filesFold (encoding_files files : List Str) :
    ∀ d : List UserEntry, (entryNames d).Nodup →
      (entryNames (files.foldl (listStep encoding_files) d)).Nodup := by
  induction files with
  | nil => intro d h; exact h
  | cons f rest ih =>
    intro d h
    exact ih _ (nodup_entryNames_listStep _ _ _ h)

theorem nodup_entryNames_rowsFold (rows : List UserRow) :
    ∀ d : List UserEntry, (entryNames d).Nodup →
      (entryNames (rows.foldl (fun d r => dictSet d (rowEntry r)) d)).Nodup := by
  induction rows with
  | nil => intro d h; exact h
  | cons r rest ih =>
    intro d h
    exact ih _ (nodup_entryNames_dictSet _ _ h)

/-! ### Which trained values the directory entries can write -/

theorem lastTouch_some_mem (encoding_files : List Str) (n : Str) (files : List Str)
    (t : Bool) (h : lastTouch encoding_files n files = some t) :
    ∃ f ∈ files, touchVal encoding_files n f = some t := by
  induction files with
  | nil => cases h
  | cons f rest ih =>
    simp only [lastTouch] at h
    cases hrest : lastTouch encoding_files n rest with
    | some t2 =>
      rw [hrest] at h
      have h2 : some t2 = some t := h
      have ht : t2 = t := by injection h2
      obtain ⟨g, hg, hgt⟩ := ih (ht ▸ hrest)
      exact ⟨g, List.mem_cons_of_mem f hg, hgt⟩
    | none =>
      rw [hrest] at h
      have h2 : touchVal encoding_files n f = some t := h
      exact ⟨f, List.mem_cons_self f rest, h2⟩

theorem lastTouch_of_touches (encoding_files : List Str) (n : Str) (files : List Str)
    (hall : ∀ f ∈ files, ∀ b, touchVal encoding_files n f = some b → b = true)
    (hex : ∃ f ∈ files, touchVal encoding_files n f ≠ none) :
    lastTouch encoding_files n files = some true := by
  induction files with
  | nil =>
    rcases hex with ⟨f, hf, _⟩
    cases hf
  | cons f rest ih =>
    simp only [lastTouch]
    cases hrest : lastTouch encoding_files n rest with
    | some t =>
      obtain ⟨g, hg, hgt⟩ := lastTouch_some_mem encoding_files n rest t hrest
      have ht : t = true := hall g (List.mem_cons_of_mem f hg) t hgt
      exact congrArg some ht
    | none =>
      cases hf : touchVal encoding_files n f with
      | none =>
        rcases hex with ⟨g, hg, hgne⟩
        rcases List.mem_cons.mp hg with hgf | hgr
        · exact absurd (hgf ▸ hf) hgne
        · exact absurd ((lastTouch_eq_none_iff encoding_files n rest).mp hrest g hgr) hgne
      | some b =>
        have hb : b = true := hall f (List.mem_cons_self f rest) b hf
        exact congrArg some (hb ▸ rfl)

theorem lastTouch_false_or_none (encoding_files : List Str) (n : Str) (files : List Str)
    (hall : ∀ f ∈ files, ∀ b, touchVal encoding_files n f = some b → b = false) :
    lastTouch encoding_files n files = none ∨
      lastTouch encoding_files n files = some false := by
  cases h : lastTouch encoding_files n files with
  | none => exact Or.inl rfl
  | some t =>
    obtain ⟨g, hg, hgt⟩ := lastTouch_some_mem encoding_files n files t h
    exact Or.inr (congrArg some (hall g hg t hgt))

/-- When the exact encoding file is present, every trained value written to
the key is `true` (the membership test of the jpg branch succeeds, and the
encoding branch always writes `true`). -/
theorem touchVal_all_true {files : List Str} {n : Str}
    (hmem : (n ++ encE) ∈ files) (f : Str) (b : Bool)
    (h : touchVal (files.filter (pyEndsWith encE)) n f = some b) : b = true := by
  unfold touchVal at h
  by_cases hcond :
      (pyEndsWith jpgE f && f.contains usC && !(pyStartsWith ['.'] f)) = true
  · rw [if_pos hcond] at h
    by_cases hlen : (splitOnChar usC f).length ≥ 2
    · rw [if_pos hlen] at h
      by_cases hu : (joinSep [usC] (splitOnChar usC f).dropLast == n) = true
      · rw [if_pos hu] at h
        have hc : (files.filter (pyEndsWith encE)).contains (n ++ encE) = true := by
          have : (n ++ encE) ∈ files.filter (pyEndsWith encE) :=
            List.mem_filter.mpr ⟨hmem, pyEndsWith_append _ _ _
              ((pyEndsWith_iff _ _).mpr (List.suffix_refl _))⟩
          simpa [List.elem_iff] using this
        have hb : b = (files.filter (pyEndsWith encE)).contains (n ++ encE) := by
          simpa using h.symm
        rw [hb, hc]
      · rw [if_neg hu] at h
        exact absurd h (by simp)
    · rw [if_neg hlen] at h
      exact absurd h (by simp)
  · rw [if_neg hcond] at h
    by_cases henc : pyEndsWith encE f = true
    · rw [if_pos henc] at h
      by_cases hu : (pyReplace encE [] f == n) = true
      · rw [if_pos hu] at h
        simpa using h.symm
      · rw [if_neg hu] at h
        exact absurd h (by simp)
    · rw [if_neg henc] at h
      exact absurd h (by simp)

/-- When the exact encoding file is absent and no other `_encoding.npy`
file strip-parses to the key, every trained value written is `false`. -/
theorem touchVal_all_false {files : List Str} {n : Str}
    (hmem : (n ++ encE) ∉ files)
    (hgood : ∀ f ∈ files, pyEndsWith encE f = true → pyReplace encE [] f = n →
      f = n ++ encE)
    (f : Str) (hf : f ∈ files) (b : Bool)
    (h : touchVal (files.filter (pyEndsWith encE)) n f = some b) : b = false := by
  unfold touchVal at h
  by_cases hcond :
      (pyEndsWith jpgE f && f.contains usC && !(pyStartsWith ['.'] f)) = true
  · rw [if_pos hcond] at h
    by_cases hlen : (splitOnChar usC f).length ≥ 2
    · rw [if_pos hlen] at h
      by_cases hu : (joinSep [usC] (splitOnChar usC f).dropLast == n) = true
      · rw [if_pos hu] at h
        have hc : (files.filter (pyEndsWith encE)).contains (n ++ encE) = false := by
          rcases hco : (files.filter (pyEndsWith encE)).contains (n ++ encE) with _ | _
          · rfl
          · have : (n ++ encE) ∈ files.filter (pyEndsWith encE) := by
              simpa [List.elem_iff] using hco
            exact absurd (List.mem_filter.mp this).1 hmem
        have hb : b = (files.filter (pyEndsWith encE)).contains (n ++ encE) := by
          simpa using h.symm
        rw [hb, hc]
      · rw [if_neg hu] at h
        exact absurd h (by simp)
    · rw [if_neg hlen] at h
      exact absurd h (by simp)
  · rw [if_neg hcond] at h
    by_cases henc : pyEndsWith encE f = true
    · rw [if_pos henc] at h
      by_cases hu : (pyReplace encE [] f == n) = true
      · have heq : f = n ++ encE := hgood f hf henc (by simpa using hu)
        exact absurd (heq ▸ hf) hmem
      · rw [if_neg hu] at h
        exact absurd h (by simp)
    · rw [if_neg henc] at h
      exact absurd h (by simp)

/-- The encoding file itself, when it strip-parses back to its own user,
writes `true`. -/
theorem touchVal_enc_self (encoding_files : List Str) {n : Str}
    (hparse : pyReplace encE [] (n ++ encE) = n) :
    touchVal encoding_files n (n ++ encE) = some true := by
  have hencw : pyEndsWith encE (n ++ encE) = true :=
    pyEndsWith_append _ _ _ ((pyEndsWith_iff _ _).mpr (List.suffix_refl _))
  have hjpg : pyEndsWith jpgE (n ++ encE) = false := by
    simpa using enc_not_jpg hencw
  unfold touchVal
  rw [if_neg (by simp [hjpg]), if_pos hencw, if_pos (by simp [hparse])]

/-- The registered image file `<name>_1.jpg` of a non-dot user writes the
membership bit of the exact encoding file. -/
theorem touchVal_jpg_self (encoding_files : List Str) {n : Str}
    (hn : n ≠ []) (hdot : pyStartsWith ['.'] n = false) :
    touchVal encoding_files n (n ++ oneJpgE) =
      some (encoding_files.contains (n ++ encE)) := by
  have hjpg : pyEndsWith jpgE (n ++ oneJpgE) = true :=
    pyEndsWith_append _ _ _ (by decide)
  have hus : (n ++ oneJpgE).contains usC = true := by
    have h1 : usC ∈ n ++ oneJpgE := List.mem_append.mpr (Or.inr (by decide))
    simpa [List.elem_iff] using h1
  have hdot2 : pyStartsWith ['.'] (n ++ oneJpgE) = false := by
    cases n with
    | nil => exact absurd rfl hn
    | cons c cs =>
      simp only [pyStartsWith, List.cons_append, List.isPrefixOf] at hdot ⊢
      simpa using (by simpa using hdot)
  unfold touchVal
  rw [if_pos (by rw [hjpg, hus, hdot2]; rfl), if_pos (splitOnChar_name_jpg_length n),
    if_pos (by simp [parseJpg_roundtrip])]

/-! ### Handler-level helper lemmas -/

theorem generate_success_spec (env : Env) (fs : List File) {name : Str} {bts : Bytes}
    {e : Encoding} {es : List Encoding}
    (hnoimg : ∀ f ∈ fs, f.name ≠ name ++ oneJpgE)
    (hnoenc : ∀ f ∈ fs, f.name ≠ name ++ encE)
    (henc : env.faceEncodings bts = Except.ok (e :: es)) :
    generate_single_user_encoding env (fsWrite fs (name ++ oneJpgE) (Content.img bts)) name =
      ⟨true, fs ++ [⟨name ++ oneJpgE, Content.img bts⟩, ⟨name ++ encE, Content.enc e⟩],
        [Effect.encoderCall bts, Effect.fileWrite (name ++ encE)]⟩ := by
  have h1 : fsWrite fs (name ++ oneJpgE) (Content.img bts)
      = fs ++ [⟨name ++ oneJpgE, Content.img bts⟩] := fsWrite_absent _ hnoimg
  have h2 : fsExists (fs ++ [⟨name ++ oneJpgE, Content.img bts⟩]) (name ++ oneJpgE) = true :=
    fsExists_append_self fs _ _
  have h3 : fsRead (fs ++ [⟨name ++ oneJpgE, Content.img bts⟩]) (name ++ oneJpgE)
      = some (Content.img bts) := fsRead_append_absent _ hnoimg
  have h4 : fsWrite (fs ++ [⟨name ++ oneJpgE, Content.img bts⟩]) (name ++ encE)
      (Content.enc e)
      = fs ++ [⟨name ++ oneJpgE, Content.img bts⟩, ⟨name ++ encE, Content.enc e⟩] := by
    rw [fsWrite_absent]
    · simp
    · intro f hf
      rcases List.mem_append.mp hf with hf2 | hf2
      · exact hnoenc f hf2
      · have hfe : f = ⟨name ++ oneJpgE, Content.img bts⟩ := by simpa using hf2
        rw [hfe]
        exact img_ne_enc name
  rw [h1]
  simp [generate_single_user_encoding, h2, h3, h4, henc]

theorem generate_zero_spec (env : Env) (fs : List File) {name : Str} {bts : Bytes}
    (hnoimg : ∀ f ∈ fs, f.name ≠ name ++ oneJpgE)
    (henc : env.faceEncodings bts = Except.ok []) :
    generate_single_user_encoding env (fsWrite fs (name ++ oneJpgE) (Content.img bts)) name =
      ⟨false, fs ++ [⟨name ++ oneJpgE, Content.img bts⟩], [Effect.encoderCall bts]⟩ := by
  have h1 : fsWrite fs (name ++ oneJpgE) (Content.img bts)
      = fs ++ [⟨name ++ oneJpgE, Content.img bts⟩] := fsWrite_absent _ hnoimg
  have h2 : fsExists (fs ++ [⟨name ++ oneJpgE, Content.img bts⟩]) (name ++ oneJpgE) = true :=
    fsExists_append_self fs _ _
  have h3 : fsRead (fs ++ [⟨name ++ oneJpgE, Content.img bts⟩]) (name ++ oneJpgE)
      = some (Content.img bts) := fsRead_append_absent _ hnoimg
  rw [h1]
  simp [generate_single_user_encoding, h2, h3, henc]

theorem nofile_noimg {fs : List File} {name : Str}
    (hnofile : ∀ f ∈ listdir fs, matchFile name f = false) :
    ∀ f ∈ fs, f.name ≠ name ++ oneJpgE := by
  intro f hf heq
  have hm := hnofile f.name (show f.name ∈ listdir fs from List.mem_map_of_mem _ hf)
  rw [heq, matchFile_img name] at hm
  cases hm

theorem nofile_noenc {fs : List File} {name : Str}
    (hnofile : ∀ f ∈ listdir fs, matchFile name f = false) :
    ∀ f ∈ fs, f.name ≠ name ++ encE := by
  intro f hf heq
  have hm := hnofile f.name (show f.name ∈ listdir fs from List.mem_map_of_mem _ hf)
  rw [heq, matchFile_enc name] at hm
  cases hm

theorem register_user_success_spec (env : Env) (fs : List File) (db : List Str)
    {name image_data payload : Str} {bts : Bytes} {e : Encoding} {es : List Encoding}
    (hname : name ≠ []) (himg : image_data ≠ [])
    (hnofile : ∀ f ∈ listdir fs, matchFile name f = false)
    (hpayload : extractPayload image_data = some payload)
    (hdecode : env.b64decode payload = Except.ok bts)
    (henc : env.faceEncodings bts = Except.ok (e :: es))
    (hdb : env.dbAddErr = none) :
    register_user env fs db name image_data =
      ⟨Except.ok ⟨Status.success,
          "User ".data ++ name ++ " registered successfully with face capture.".data⟩,
        fs ++ [⟨name ++ oneJpgE, Content.img bts⟩, ⟨name ++ encE, Content.enc e⟩],
        db ++ [name],
        [Effect.fileWrite (name ++ oneJpgE), Effect.encoderCall bts,
          Effect.fileWrite (name ++ encE), Effect.dbAddUser name]⟩ := by
  have hfilter : (listdir fs).filter (matchFile name) = [] :=
    List.filter_eq_nil_iff.mpr (fun a ha => by simp [hnofile a ha])
  have hgen := generate_success_spec env fs (nofile_noimg hnofile) (nofile_noenc hnofile) henc
  simp only [register_user, if_neg hname, if_neg himg, hfilter, hpayload, hdecode, hgen, hdb]
  simp

theorem register_user_zerofaces_spec (env : Env) (fs : List File) (db : List Str)
    {name image_data payload : Str} {bts : Bytes}
    (hname : name ≠ []) (himg : image_data ≠ [])
    (hnofile : ∀ f ∈ listdir fs, matchFile name f = false)
    (hpayload : extractPayload image_data = some payload)
    (hdecode : env.b64decode payload = Except.ok bts)
    (henc : env.faceEncodings bts = Except.ok []) :
    register_user env fs db name image_data =
      ⟨Except.ok ⟨Status.error,
          "Failed to generate face encoding. Please ensure a clear face image with good lighting.".data⟩,
        fs, db,
        [Effect.fileWrite (name ++ oneJpgE), Effect.encoderCall bts,
          Effect.fileRemove (name ++ oneJpgE)]⟩ := by
  have hfilter : (listdir fs).filter (matchFile name) = [] :=
    List.filter_eq_nil_iff.mpr (fun a ha => by simp [hnofile a ha])
  have hgen := generate_zero_spec env fs (nofile_noimg hnofile) henc
  have hex : fsExists (fs ++ [⟨name ++ oneJpgE, Content.img bts⟩]) (name ++ oneJpgE) = true :=
    fsExists_append_self fs _ _
  have hrem : fsRemove (fs ++ [⟨name ++ oneJpgE, Content.img bts⟩]) (name ++ oneJpgE) = fs :=
    fsRemove_append_absent _ (nofile_noimg hnofile)
  simp only [register_user, if_neg hname, if_neg himg, hfilter, hpayload, hdecode, hgen,
    hex, hrem]
  simp

/-! ### Further small helpers -/

theorem contains_iff_mem (l : List Str) (x : Str) : l.contains x = true ↔ x ∈ l := by
  simp [List.contains, List.elem_iff]

theorem foldl_append_eq_map {α β : Type} (g : α → β) (rows : List α) :
    ∀ acc : List β, rows.foldl (fun l r => l ++ [g r]) acc = acc ++ rows.map g := by
  induction rows with
  | nil => intro acc; simp
  | cons r rest ih => intro acc; simp [ih]

theorem read_access_logs_eq_map (rows : List LogRow) :
    read_access_logs rows
      = rows.map (fun r => ⟨r.timestamp, r.event_type, pyOrStr r.person_name naE⟩) := by
  unfold read_access_logs
  rw [foldl_append_eq_map]
  simp

theorem lastRowWith_name {n : Str} {rows : List UserRow} {r : UserRow}
    (h : lastRowWith n rows = some r) : r.name = n := by
  induction rows with
  | nil => cases h
  | cons r2 rest ih =>
    simp only [lastRowWith] at h
    cases hrest : lastRowWith n rest with
    | some r3 =>
      rw [hrest] at h
      have h2 : some r3 = some r := h
      injection h2 with h3
      exact ih (h3 ▸ hrest)
    | none =>
      rw [hrest] at h
      by_cases hr : (r2.name == n) = true
      · rw [if_pos hr] at h
        have h2 : some r2 = some r := h
        injection h2 with h3
        rw [← h3]
        exact eq_of_beq hr
      · rw [if_neg hr] at h
        cases h

theorem entryAfterTouch_trained (n : Str) (t : Bool) (o : Option UserEntry) :
    (entryAfterTouch n t o).trained = t := by
  cases o <;> rfl

/-- A concrete environment whose collaborators all succeed: the decoder
yields the byte `[7]`, the face pipeline one encoding `[5]`. -/
def envW : Env :=
  ⟨fun _ => Except.ok [7], fun _ => Except.ok [[5]], none, none,
    Except.ok [], Except.ok []⟩

/-- A concrete environment whose face pipeline finds zero faces. -/
def envZ : Env :=
  ⟨fun _ => Except.ok [9], fun _ => Except.ok [], none, none,
    Except.ok [], Except.ok []⟩

/-- A concrete environment whose `get_all_users` and
`get_recent_access_logs` database calls raise. -/
def envBad : Env :=
  ⟨fun _ => Except.ok [], fun _ => Except.ok [], none, none,
    Except.error "database failure".data, Except.error "database failure".data⟩

/-! ### The claims -/

/-- C1: every POST /register_user with a non-empty name, no matching file on
disk (no file starting with `<name>_` and ending in `.jpg` or
`_encoding.npy`), an image whose base64 decode succeeds, an encoder
returning at least one encoding, and a non-raising database insert,
returns status success; afterwards exactly one image file `<name>_1.jpg`
and exactly one encoding file `<name>_encoding.npy` exist, the encoding
file holds the first encoding returned by the encoder, and
`db_manager.add_user(name)` is called exactly once. -/
theorem spec_C1 (env : Env) (fs : List File) (db : List Str)
    (name image_data payload : Str) (bts : Bytes) (e : Encoding) (es : List Encoding)
    (hname : name ≠ []) (himg : image_data ≠ [])
    (hnofile : ∀ f ∈ listdir fs, matchFile name f = false)
    (hpayload : extractPayload image_data = some payload)
    (hdecode : env.b64decode payload = Except.ok bts)
    (henc : env.faceEncodings bts = Except.ok (e :: es))
    (hdb : env.dbAddErr = none) :
    ∃ msg : Str,
      (register_user env fs db name image_data).resp = Except.ok ⟨Status.success, msg⟩ ∧
      (listdir (register_user env fs db name image_data).fs).count (name ++ oneJpgE) = 1 ∧
      (listdir (register_user env fs db name image_data).fs).count (name ++ encE) = 1 ∧
      fsRead (register_user env fs db name image_data).fs (name ++ encE)
        = some (Content.enc e) ∧
      (register_user env fs db name image_data).trace.count (Effect.dbAddUser name) = 1 := by
  have himgmem : (name ++ oneJpgE) ∉ listdir fs := fun hmem => by
    have h := hnofile _ hmem
    rw [matchFile_img name] at h
    cases h
  have hencmem : (name ++ encE) ∉ listdir fs := fun hmem => by
    have h := hnofile _ hmem
    rw [matchFile_enc name] at h
    cases h
  have hne : ((name ++ oneJpgE) == (name ++ encE)) = false :=
    beq_eq_false_iff_ne.mpr (img_ne_enc name)
  have hne2 : ((name ++ encE) == (name ++ oneJpgE)) = false :=
    beq_eq_false_iff_ne.mpr (Ne.symm (img_ne_enc name))
  rw [register_user_success_spec env fs db hname himg hnofile hpayload hdecode henc hdb]
  have hl : listdir (fs ++ [⟨name ++ oneJpgE, Content.img bts⟩,
      ⟨name ++ encE, Content.enc e⟩]) = listdir fs ++ [name ++ oneJpgE, name ++ encE] := by
    simp [listdir]
  refine ⟨_, rfl, ?_, ?_, ?_, ?_⟩
  · show (listdir (fs ++ [⟨name ++ oneJpgE, Content.img bts⟩,
      ⟨name ++ encE, Content.enc e⟩])).count (name ++ oneJpgE) = 1
    rw [hl, List.count_append, List.count_eq_zero.mpr himgmem]
    simp [List.count_cons, hne2]
  · show (listdir (fs ++ [⟨name ++ oneJpgE, Content.img bts⟩,
      ⟨name ++ encE, Content.enc e⟩])).count (name ++ encE) = 1
    rw [hl, List.count_append, List.count_eq_zero.mpr hencmem]
    simp [List.count_cons, hne]
  · show fsRead (fs ++ [⟨name ++ oneJpgE, Content.img bts⟩,
      ⟨name ++ encE, Content.enc e⟩]) (name ++ encE) = some (Content.enc e)
    have hsplit : fs ++ [⟨name ++ oneJpgE, Content.img bts⟩, ⟨name ++ encE, Content.enc e⟩]
        = (fs ++ [⟨name ++ oneJpgE, Content.img bts⟩]) ++ [⟨name ++ encE, Content.enc e⟩] := by
      simp
    rw [hsplit]
    apply fsRead_append_absent
    intro f hf
    rcases List.mem_append.mp hf with hf2 | hf2
    · exact nofile_noenc hnofile f hf2
    · have hfe : f = ⟨name ++ oneJpgE, Content.img bts⟩ := by simpa using hf2
      rw [hfe]
      exact img_ne_enc name
  · simp [List.count_cons]

/-- C1 witness: registering `bob` against an empty directory with the
all-succeeding environment. -/
theorem spec_C1_witness :
    (listdir (register_user envW [] [] "bob".data "x".data).fs).count
      ("bob".data ++ oneJpgE) = 1 ∧
    (listdir (register_user envW [] [] "bob".data "x".data).fs).count
      ("bob".data ++ encE) = 1 ∧
    fsRead (register_user envW [] [] "bob".data "x".data).fs ("bob".data ++ encE)
      = some (Content.enc [5]) ∧
    (register_user envW [] [] "bob".data "x".data).trace.count
      (Effect.dbAddUser "bob".data) = 1 := by
  obtain ⟨msg, h1, h2, h3, h4, h5⟩ :=
    spec_C1 envW [] [] "bob".data "x".data "x".data [7] [5] []
      (by decide) (by decide)
      (by intro f hf; exact absurd hf (List.not_mem_nil f))
      (by decide) rfl rfl rfl
  exact ⟨h2, h3, h4, h5⟩

/-- C2: whenever some existing file in the directory starts with `<name>_`
and ends in `.jpg` or `_encoding.npy`, POST /register_user returns status
error regardless of the supplied image, writes no file, calls no encoder
and makes no database write. -/
theorem spec_C2 (env : Env) (fs : List File) (db : List Str) (name image_data : Str)
    (hconflict : ∃ f ∈ listdir fs, matchFile name f = true) :
    ∃ msg : Str,
      (register_user env fs db name image_data).resp = Except.ok ⟨Status.error, msg⟩ ∧
      (register_user env fs db name image_data).fs = fs ∧
      (register_user env fs db name image_data).db = db ∧
      (register_user env fs db name image_data).trace = [] := by
  unfold register_user
  by_cases hname : name = []
  · rw [if_pos hname]
    exact ⟨_, rfl, rfl, rfl, rfl⟩
  · rw [if_neg hname]
    by_cases himg : image_data = []
    · rw [if_pos himg]
      exact ⟨_, rfl, rfl, rfl, rfl⟩
    · rw [if_neg himg]
      obtain ⟨f, hf, hmf⟩ := hconflict
      have hfil : (listdir fs).filter (matchFile name) ≠ [] :=
        List.ne_nil_of_mem (List.mem_filter.mpr ⟨hf, hmf⟩)
      rw [if_pos hfil]
      exact ⟨_, rfl, rfl, rfl, rfl⟩

/-- C2 witness: re-registering `bob` when `bob_1.jpg` already exists. -/
theorem spec_C2_witness :
    (register_user envW [⟨"bob_1.jpg".data, Content.other⟩] [] "bob".data "x".data).fs
      = [⟨"bob_1.jpg".data, Content.other⟩] ∧
    (register_user envW [⟨"bob_1.jpg".data, Content.other⟩] [] "bob".data "x".data).trace
      = [] := by
  obtain ⟨msg, h1, h2, h3, h4⟩ :=
    spec_C2 envW [⟨"bob_1.jpg".data, Content.other⟩] [] "bob".data "x".data
      ⟨"bob_1.jpg".data, by simp [listdir], by decide⟩
  exact ⟨h2, h4⟩

/-- C3: when the encoder returns zero encodings for the saved image, POST
/register_user returns status error, the just-written image file is
deleted, no encoding file is written and no database row is added: the
filesystem and database are exactly as before the request, and the trace
is the write, the encoder call and the compensating remove. -/
theorem spec_C3 (env : Env) (fs : List File) (db : List Str)
    (name image_data payload : Str) (bts : Bytes)
    (hname : name ≠ []) (himg : image_data ≠ [])
    (hnofile : ∀ f ∈ listdir fs, matchFile name f = false)
    (hpayload : extractPayload image_data = some payload)
    (hdecode : env.b64decode payload = Except.ok bts)
    (henc : env.faceEncodings bts = Except.ok []) :
    ∃ msg : Str,
      (register_user env fs db name image_data).resp = Except.ok ⟨Status.error, msg⟩ ∧
      (register_user env fs db name image_data).fs = fs ∧
      (register_user env fs db name image_data).db = db ∧
      (register_user env fs db name image_data).trace =
        [Effect.fileWrite (name ++ oneJpgE), Effect.encoderCall bts,
          Effect.fileRemove (name ++ oneJpgE)] := by
  rw [register_user_zerofaces_spec env fs db hname himg hnofile hpayload hdecode henc]
  exact ⟨_, rfl, rfl, rfl, rfl⟩

/-- C3 witness: registering `bob` with the zero-face environment rolls the
directory back to empty. -/
theorem spec_C3_witness :
    (register_user envZ [] [] "bob".data "x".data).fs = [] ∧
    (register_user envZ [] [] "bob".data "x".data).trace =
      [Effect.fileWrite "bob_1.jpg".data, Effect.encoderCall [9],
        Effect.fileRemove "bob_1.jpg".data] := by
  obtain ⟨msg, h1, h2, h3, h4⟩ :=
    spec_C3 envZ [] [] "bob".data "x".data "x".data [9]
      (by decide) (by decide)
      (by intro f hf; exact absurd hf (List.not_mem_nil f))
      (by decide) rfl rfl
  exact ⟨h2, h4.trans (by decide)⟩

/-- C4: GET /delete_user removes exactly the files whose name starts with
`<username>_` and ends in `.jpg` or `_encoding.npy`, calls
`db_manager.delete_user(username)` exactly once, and returns status
success; when no file matches, the directory is returned unchanged
(idempotence). -/
theorem spec_C4 (env : Env) (fs : List File) (db : List Str) (username : Str)
    (hdb : env.dbDeleteErr = none) :
    ∃ msg : Str,
      (delete_user env fs db username).resp = Except.ok ⟨Status.success, msg⟩ ∧
      (delete_user env fs db username).fs
        = fs.filter (fun f => !(matchFile username f.name)) ∧
      (delete_user env fs db username).trace.count (Effect.dbDeleteUser username) = 1 ∧
      ((∀ f ∈ listdir fs, matchFile username f = false) →
        (delete_user env fs db username).fs = fs) := by
  unfold delete_user
  rw [hdb]
  dsimp only
  refine ⟨_, rfl, rfl, ?_, ?_⟩
  · rw [List.count_append]
    have h0 : (((listdir fs).filter (matchFile username)).map Effect.fileRemove).count
        (Effect.dbDeleteUser username) = 0 := by
      rw [List.count_eq_zero]
      intro hmem
      obtain ⟨a, _, ha⟩ := List.mem_map.mp hmem
      cases ha
    rw [h0]
    simp [List.count_cons]
  · intro hno
    apply List.filter_eq_self.mpr
    intro f hf
    simp [hno f.name (List.mem_map_of_mem _ hf)]

/-- C4 witness: deleting `bob` removes the two `bob` files, keeps `zed`,
and a second deletion with no matching files is a no-op. -/
theorem spec_C4_witness :
    (delete_user envW [⟨"bob_1.jpg".data, Content.other⟩,
        ⟨"zed_1.jpg".data, Content.other⟩,
        ⟨"bob_encoding.npy".data, Content.other⟩] [] "bob".data).fs
      = [⟨"zed_1.jpg".data, Content.other⟩] ∧
    (delete_user envW [⟨"zed_1.jpg".data, Content.other⟩] [] "bob".data).fs
      = [⟨"zed_1.jpg".data, Content.other⟩] := by
  obtain ⟨m1, h1, h2, h3, h4⟩ :=
    spec_C4 envW [⟨"bob_1.jpg".data, Content.other⟩, ⟨"zed_1.jpg".data, Content.other⟩,
      ⟨"bob_encoding.npy".data, Content.other⟩] [] "bob".data rfl
  obtain ⟨m2, g1, g2, g3, g4⟩ :=
    spec_C4 envW [⟨"zed_1.jpg".data, Content.other⟩] [] "bob".data rfl
  exact ⟨h2.trans (by decide), g4 (by decide)⟩

/-- C6: for every row list handed back by
`db_manager.get_recent_access_logs(100)` (hence of length at most 100),
GET /logs returns one entry per row in the same order, reshaped into
`{timestamp, event, person}` from the row's `timestamp`, `event_type`
and `person_name` columns, so at most 100 entries; `person` is the
sentinel `"N/A"` whenever `person_name` is null. -/
theorem spec_C6 (rows : List LogRow) (hlen : rows.length ≤ 100) :
    (read_access_logs rows).length ≤ 100 ∧
    read_access_logs rows
      = rows.map (fun r => ⟨r.timestamp, r.event_type, pyOrStr r.person_name naE⟩) ∧
    ∀ i : Nat, ∀ r : LogRow, rows[i]? = some r → r.person_name = none →
      ((read_access_logs rows)[i]?).map LogEntry.person = some naE := by
  refine ⟨?_, read_access_logs_eq_map rows, ?_⟩
  · rw [read_access_logs_eq_map rows]
    simpa using hlen
  · intro i r hr hp
    rw [read_access_logs_eq_map rows]
    simp only [List.getElem?_map, hr, Option.map_some]
    simp [pyOrStr, hp]

/-- C6 witness: a single row with a null person name. -/
theorem spec_C6_witness :
    (read_access_logs [⟨1, "t".data, "open".data, none⟩]).length ≤ 100 ∧
    ((read_access_logs [⟨1, "t".data, "open".data, none⟩])[0]?).map LogEntry.person
      = some naE := by
  obtain ⟨h1, h2, h3⟩ := spec_C6 [⟨1, "t".data, "open".data, none⟩] (by decide)
  exact ⟨h1, h3 0 ⟨1, "t".data, "open".data, none⟩ rfl rfl⟩

theorem add_user_success_spec (env : Env) (fs : List File) (db : List Str) {name : Str}
    (hname : name ≠ [])
    (hnofile : ∀ f ∈ listdir fs, matchFile name f = false)
    (hdb : env.dbAddErr = none) :
    add_user env fs db name =
      ⟨Except.ok ⟨Status.success,
        "User ".data ++ name
          ++ " added successfully. Please capture face image for recognition.".data⟩,
        fs, db ++ [name], [Effect.dbAddUser name]⟩ := by
  have hfilter : (listdir fs).filter (matchFile name) = [] :=
    List.filter_eq_nil_iff.mpr (fun a ha => by simp [hnofile a ha])
  unfold add_user
  rw [if_neg hname, hfilter, if_neg (by simp), hdb]

/-- C9 (implicit): /add_user checks uniqueness only against the
filesystem: for every non-empty name with no matching file on disk it
returns status success and calls `db_manager.add_user(name)` no matter
what the database holds, and two consecutive calls both succeed and both
insert. -/
theorem spec_C9 (env : Env) (fs : List File) (db : List Str) (name : Str)
    (hname : name ≠ [])
    (hnofile : ∀ f ∈ listdir fs, matchFile name f = false)
    (hdb : env.dbAddErr = none) :
    ∃ msg : Str,
      (add_user env fs db name).resp = Except.ok ⟨Status.success, msg⟩ ∧
      (add_user env fs db name).fs = fs ∧
      (add_user env fs db name).db = db ++ [name] ∧
      (add_user env fs db name).trace = [Effect.dbAddUser name] ∧
      ∃ msg2 : Str,
        (add_user env fs (add_user env fs db name).db name).resp
          = Except.ok ⟨Status.success, msg2⟩ ∧
        (add_user env fs (add_user env fs db name).db name).db
          = db ++ [name, name] := by
  rw [add_user_success_spec env fs db hname hnofile hdb]
  dsimp only
  rw [add_user_success_spec env fs (db ++ [name]) hname hnofile hdb]
  refine ⟨_, rfl, rfl, rfl, rfl, _, rfl, by simp⟩

/-- C9 witness: the database already holds a row named `bob`, there are no
files, and the two inserts still go through. -/
theorem spec_C9_witness :
    (add_user envW [] ["bob".data] "bob".data).trace = [Effect.dbAddUser "bob".data] ∧
    (add_user envW []
        (add_user envW [] ["bob".data] "bob".data).db "bob".data).db
      = ["bob".data, "bob".data, "bob".data] := by
  obtain ⟨m1, h1, h2, h3, h4, m2, h5, h6⟩ :=
    spec_C9 envW [] ["bob".data] "bob".data (by decide)
      (by intro f hf; exact absurd hf (List.not_mem_nil f)) rfl
  exact ⟨h4, h6.trans (by decide)⟩

/-- C10 (implicit): GET /logs substitutes the sentinel `"N/A"` for every
falsy person name, in particular for the empty string: a log row whose
`person_name` is the empty string yields an entry whose `person` is
`"N/A"`, indistinguishable from a null one. -/
theorem spec_C10 (rows : List LogRow) (i : Nat) (r : LogRow)
    (hr : rows[i]? = some r) (hp : r.person_name = some []) :
    ((read_access_logs rows)[i]?).map LogEntry.person = some naE := by
  rw [read_access_logs_eq_map rows]
  simp only [List.getElem?_map, hr, Option.map_some]
  simp [pyOrStr, hp]

/-- C10 witness: one row with an empty-string person name. -/
theorem spec_C10_witness :
    ((read_access_logs [⟨1, "t".data, "open".data, some []⟩])[0]?).map LogEntry.person
      = some naE :=
  spec_C10 [⟨1, "t".data, "open".data, some []⟩] 0 ⟨1, "t".data, "open".data, some []⟩
    rfl rfl

/-- C7 (amended): the JSON-mutating handlers — POST /register_user,
POST /add_user and GET /delete_user — catch every collaborator exception
and always return a JSON `{status, message}` body; but the GET routes `/`,
`/users` and `/logs` have no handler-level try/except, so a database
exception raised by `get_all_users` (inside `get_registered_users`) or by
`get_recent_access_logs` (inside `read_access_logs`) propagates out of
them as an unhandled server error. -/
theorem spec_C7 (env : Env) (fs : List File) (db : List Str)
    (name image_data username : Str) (e e2 : Str)
    (herr : env.dbUsers = Except.error e)
    (herr2 : env.dbLogs = Except.error e2) :
    (register_user env fs db name image_data).resp.isOk = true ∧
    (add_user env fs db name).resp.isOk = true ∧
    (delete_user env fs db username).resp.isOk = true ∧
    index_route env fs = Except.error e ∧
    users_route env fs = Except.error e ∧
    logs_route env = Except.error e2 := by
  refine ⟨?_, ?_, ?_, ?_, ?_, ?_⟩
  · unfold register_user
    by_cases h1 : name = []
    · rw [if_pos h1]; rfl
    · rw [if_neg h1]
      by_cases h2 : image_data = []
      · rw [if_pos h2]; rfl
      · rw [if_neg h2]
        by_cases h3 : (listdir fs).filter (matchFile name) ≠ []
        · rw [if_pos h3]; rfl
        · rw [if_neg h3]
          cases hp : extractPayload image_data with
          | none => rfl
          | some payload =>
            dsimp only
            cases hd : env.b64decode payload with
            | error er => rfl
            | ok bts =>
              dsimp only
              by_cases hg : (generate_single_user_encoding env
                  (fsWrite fs (name ++ oneJpgE) (Content.img bts)) name).ok = true
              · rw [if_pos hg]
                cases ha : env.dbAddErr with
                | some er2 => rfl
                | none => rfl
              · rw [if_neg hg]
                by_cases hex : fsExists (generate_single_user_encoding env
                    (fsWrite fs (name ++ oneJpgE) (Content.img bts)) name).fs
                    (name ++ oneJpgE) = true
                · rw [if_pos hex]; rfl
                · rw [if_neg hex]; rfl
  · unfold add_user
    by_cases h1 : name = []
    · rw [if_pos h1]; rfl
    · rw [if_neg h1]
      by_cases h3 : (listdir fs).filter (matchFile name) ≠ []
      · rw [if_pos h3]; rfl
      · rw [if_neg h3]
        cases ha : env.dbAddErr with
        | some er => rfl
        | none => rfl
  · unfold delete_user
    cases hd : env.dbDeleteErr with
    | some er => rfl
    | none => rfl
  · unfold index_route
    rw [herr]
  · unfold users_route
    rw [herr]
  · unfold logs_route
    rw [herr2]

/-- C7 counterexample: with a database whose calls raise, GET / and
GET /logs — which have no try/except — propagate the exception as an
unhandled error instead of returning a `{status: "error"}` JSON body,
refuting the claim for the routes it explicitly includes. -/
theorem spec_C7_counterexample :
    index_route envBad [] = Except.error "database failure".data ∧
    logs_route envBad = Except.error "database failure".data := ⟨rfl, rfl⟩

/-- C7 witness: the mutating handlers still answer with a JSON body under
the failing database. -/
theorem spec_C7_witness :
    (register_user envBad [] [] "bob".data "x".data).resp.isOk = true ∧
    (delete_user envBad [] [] "bob".data).resp.isOk = true := by
  have h := spec_C7 envBad [] [] "bob".data "x".data "bob".data
    "database failure".data "database failure".data rfl rfl
  exact ⟨h.1, h.2.2.1⟩

theorem lastRowWith_isSome {n : Str} {rows : List UserRow} {r : UserRow}
    (hr : r ∈ rows) (hn : r.name = n) : ∃ r2, lastRowWith n rows = some r2 := by
  induction rows with
  | nil => cases hr
  | cons r0 rest ih =>
    simp only [lastRowWith]
    cases hrest : lastRowWith n rest with
    | some r3 => exact ⟨r3, rfl⟩
    | none =>
      rcases List.mem_cons.mp hr with h0 | h0
      · subst h0
        refine ⟨r, ?_⟩
        show (if (r.name == n) = true then some r else none) = some r
        rw [if_pos (by simp [hn])]
      · obtain ⟨r2, h2⟩ := ih h0
        rw [h2] at hrest
        cases hrest

/-- C8: for every username, underscores included, a successful
registration writes the image as `<name>_1.jpg`, and the listing's
filename-parsing rule (split on `_`, rejoin all but the last token)
applied to `<name>_1.jpg` recovers exactly `name`; hence registering a
user and then listing users shows that same name: the registration
inserted the name via `db_manager.add_user`, so the rows returned by
`get_all_users` at listing time contain a row for it, and the listing
keeps one entry keyed by every database name (the file loop only updates
the trained flag of an existing key, never removes or renames it). -/
theorem spec_C8 (env : Env) (fs : List File) (db : List Str) (rows : List UserRow)
    (name image_data payload : Str) (bts : Bytes) (e : Encoding) (es : List Encoding)
    (hname : name ≠ []) (himg : image_data ≠ [])
    (hnofile : ∀ f ∈ listdir fs, matchFile name f = false)
    (hpayload : extractPayload image_data = some payload)
    (hdecode : env.b64decode payload = Except.ok bts)
    (henc : env.faceEncodings bts = Except.ok (e :: es))
    (hdb : env.dbAddErr = none)
    (hrow : ∃ r ∈ rows, r.name = name) :
    joinSep [usC] (splitOnChar usC (name ++ oneJpgE)).dropLast = name ∧
    (listdir (register_user env fs db name image_data).fs).count (name ++ oneJpgE) = 1 ∧
    ∃ entry : UserEntry,
      dictFind (get_registered_users rows
        (listdir (register_user env fs db name image_data).fs)) name = some entry ∧
      entry ∈ get_registered_users rows
        (listdir (register_user env fs db name image_data).fs) ∧
      entry.name = name := by
  have himgmem : (name ++ oneJpgE) ∉ listdir fs := fun hmem => by
    have h := hnofile _ hmem
    rw [matchFile_img name] at h
    cases h
  have hne2 : ((name ++ encE) == (name ++ oneJpgE)) = false :=
    beq_eq_false_iff_ne.mpr (Ne.symm (img_ne_enc name))
  rw [register_user_success_spec env fs db hname himg hnofile hpayload hdecode henc hdb]
  have hl : listdir (fs ++ [⟨name ++ oneJpgE, Content.img bts⟩,
      ⟨name ++ encE, Content.enc e⟩]) = listdir fs ++ [name ++ oneJpgE, name ++ encE] := by
    simp [listdir]
  refine ⟨parseJpg_roundtrip name, ?_, ?_⟩
  · show (listdir (fs ++ [⟨name ++ oneJpgE, Content.img bts⟩,
      ⟨name ++ encE, Content.enc e⟩])).count (name ++ oneJpgE) = 1
    rw [hl, List.count_append, List.count_eq_zero.mpr himgmem]
    simp [List.count_cons, hne2]
  · rw [hl]
    obtain ⟨r, hr, hn⟩ := hrow
    obtain ⟨r2, hlast⟩ := lastRowWith_isSome hr hn
    have hrows := rowsFold_find name rows []
    rw [hlast] at hrows
    have hd0 : dictFind (rows.foldl (fun d r => dictSet d (rowEntry r)) []) name
        = some (rowEntry r2) := hrows
    have hfind := filesFold_find
      ((listdir fs ++ [name ++ oneJpgE, name ++ encE]).filter (pyEndsWith encE))
      (listdir fs ++ [name ++ oneJpgE, name ++ encE]) name
      (rows.foldl (fun d r => dictSet d (rowEntry r)) [])
    cases hlt : lastTouch
        ((listdir fs ++ [name ++ oneJpgE, name ++ encE]).filter (pyEndsWith encE))
        name (listdir fs ++ [name ++ oneJpgE, name ++ encE]) with
    | none =>
      rw [hlt] at hfind
      have hres : dictFind (get_registered_users rows
          (listdir fs ++ [name ++ oneJpgE, name ++ encE])) name
          = some (rowEntry r2) := hfind.trans hd0
      exact ⟨rowEntry r2, hres, List.mem_of_find?_eq_some hres, lastRowWith_name hlast⟩
    | some t =>
      rw [hlt] at hfind
      have hfind2 : dictFind (get_registered_users rows
          (listdir fs ++ [name ++ oneJpgE, name ++ encE])) name
          = some (entryAfterTouch name t
            (dictFind (rows.foldl (fun d r => dictSet d (rowEntry r)) []) name)) := hfind
      exact ⟨_, hfind2, List.mem_of_find?_eq_some hfind2, entryAfterTouch_name name t⟩

/-- C8 witness: the underscored name `a_b` round-trips and, with the row
inserted by the registration visible to `get_all_users`, is listed. -/
theorem spec_C8_witness :
    joinSep [usC] (splitOnChar usC ("a_b".data ++ oneJpgE)).dropLast = "a_b".data ∧
    (listdir (register_user envW [] [] "a_b".data "x".data).fs).count
      ("a_b".data ++ oneJpgE) = 1 ∧
    (dictFind (get_registered_users [⟨1, "a_b".data, none, none, 0⟩]
        (listdir (register_user envW [] [] "a_b".data "x".data).fs))
      "a_b".data).isSome = true := by
  have h := spec_C8 envW [] [] [⟨1, "a_b".data, none, none, 0⟩]
    "a_b".data "x".data "x".data [7] [5] []
    (by decide) (by decide)
    (by intro f hf; exact absurd hf (List.not_mem_nil f))
    (by decide) rfl rfl rfl
    ⟨⟨1, "a_b".data, none, none, 0⟩, by simp, rfl⟩
  obtain ⟨entry, he, hm, hn⟩ := h.2.2
  exact ⟨h.1, h.2.1, by rw [he]; rfl⟩

/-- C5 (amended): for every database state and directory state,
(i) the merged listing never contains two entries with the same name;
(ii) a user present only as a database row — no directory entry parses to
the name under either listing rule — appears with trained = false and the
database row's created_at/last_seen/access_count;
(iii) a user present only as the encoding file `<name>_encoding.npy`,
which strip-parses back to the name, appears with trained = true and null
created_at/last_seen;
(iv) a user present in both sources appears exactly once with trained
reflecting the presence of the encoding file `<name>_encoding.npy` —
provided that, among the files ending in `_encoding.npy`, exactly the
file `<name>_encoding.npy` strip-parses to the name; without that proviso
a file such as `a_encoding.npy_encoding.npy` marks the user trained while
no encoding file for it exists (see the counterexample). -/
theorem spec_C5 (rows : List UserRow) (files : List Str) :
    (entryNames (get_registered_users rows files)).Nodup ∧
    (∀ n : Str, ∀ r : UserRow, lastRowWith n rows = some r →
      lastTouch (files.filter (pyEndsWith encE)) n files = none →
      dictFind (get_registered_users rows files) n
        = some ⟨n, false, r.created_at, r.last_seen, r.access_count⟩) ∧
    (∀ n : Str, lastRowWith n rows = none →
      (n ++ encE) ∈ files → pyReplace encE [] (n ++ encE) = n →
      dictFind (get_registered_users rows files) n = some ⟨n, true, none, none, 0⟩) ∧
    (∀ n : Str, ∀ r : UserRow, lastRowWith n rows = some r →
      (∀ f ∈ files, pyEndsWith encE f = true →
        (pyReplace encE [] f = n ↔ f = n ++ encE)) →
      ∃ entry : UserEntry,
        dictFind (get_registered_users rows files) n = some entry ∧
        entry.name = n ∧
        entry.trained = files.contains (n ++ encE)) := by
  refine ⟨?_, ?_, ?_, ?_⟩
  · unfold get_registered_users
    exact nodup_entryNames_filesFold _ _ _
      (nodup_entryNames_rowsFold rows [] (by simp [entryNames]))
  · intro n r hrow htouch
    have hrn := lastRowWith_name hrow
    have hfind := filesFold_find (files.filter (pyEndsWith encE)) files n
      (rows.foldl (fun d r => dictSet d (rowEntry r)) [])
    rw [htouch] at hfind
    have hrows := rowsFold_find n rows []
    rw [hrow] at hrows
    have hd0 : dictFind (rows.foldl (fun d r => dictSet d (rowEntry r)) []) n
        = some (rowEntry r) := hrows
    have hres : dictFind (get_registered_users rows files) n = some (rowEntry r) :=
      hfind.trans hd0
    rw [hres]
    rw [show rowEntry r
        = ⟨n, false, r.created_at, r.last_seen, r.access_count⟩ from by
      unfold rowEntry; rw [hrn]]
  · intro n hrow hmem hparse
    have hall : ∀ f ∈ files, ∀ b,
        touchVal (files.filter (pyEndsWith encE)) n f = some b → b = true :=
      fun f _ b hb => touchVal_all_true hmem f b hb
    have hex : ∃ f ∈ files, touchVal (files.filter (pyEndsWith encE)) n f ≠ none :=
      ⟨n ++ encE, hmem, by rw [touchVal_enc_self _ hparse]; simp⟩
    have hlt := lastTouch_of_touches _ n files hall hex
    have hfind := filesFold_find (files.filter (pyEndsWith encE)) files n
      (rows.foldl (fun d r => dictSet d (rowEntry r)) [])
    rw [hlt] at hfind
    have hrows := rowsFold_find n rows []
    rw [hrow] at hrows
    have hd0 : dictFind (rows.foldl (fun d r => dictSet d (rowEntry r)) []) n = none :=
      hrows
    rw [hd0] at hfind
    exact hfind
  · intro n r hrow hgood
    have hrows := rowsFold_find n rows []
    rw [hrow] at hrows
    have hd0 : dictFind (rows.foldl (fun d r => dictSet d (rowEntry r)) []) n
        = some (rowEntry r) := hrows
    have hfind := filesFold_find (files.filter (pyEndsWith encE)) files n
      (rows.foldl (fun d r => dictSet d (rowEntry r)) [])
    cases hc : files.contains (n ++ encE) with
    | true =>
      have hmem : (n ++ encE) ∈ files := (contains_iff_mem files _).mp hc
      have hparse : pyReplace encE [] (n ++ encE) = n :=
        (hgood _ hmem (pyEndsWith_append _ _ _
          ((pyEndsWith_iff _ _).mpr (List.suffix_refl _)))).mpr rfl
      have hall : ∀ f ∈ files, ∀ b,
          touchVal (files.filter (pyEndsWith encE)) n f = some b → b = true :=
        fun f _ b hb => touchVal_all_true hmem f b hb
      have hex : ∃ f ∈ files, touchVal (files.filter (pyEndsWith encE)) n f ≠ none :=
        ⟨n ++ encE, hmem, by rw [touchVal_enc_self _ hparse]; simp⟩
      have hlt := lastTouch_of_touches _ n files hall hex
      rw [hlt] at hfind
      exact ⟨_, hfind, entryAfterTouch_name n true,
        by rw [entryAfterTouch_trained]⟩
    | false =>
      have hnotmem : (n ++ encE) ∉ files := fun hm => by
        rw [(contains_iff_mem files _).mpr hm] at hc
        cases hc
      have hall : ∀ f ∈ files, ∀ b,
          touchVal (files.filter (pyEndsWith encE)) n f = some b → b = false :=
        fun f hf b hb => touchVal_all_false hnotmem
          (fun g hg he hp => (hgood g hg he).mp hp) f hf b hb
      rcases lastTouch_false_or_none _ n files hall with hlt | hlt
      · rw [hlt] at hfind
        have hres : dictFind (get_registered_users rows files) n = some (rowEntry r) :=
          hfind.trans hd0
        exact ⟨rowEntry r, hres, lastRowWith_name hrow, by simp [rowEntry, hc]⟩
      · rw [hlt] at hfind
        exact ⟨_, hfind, entryAfterTouch_name n false,
          by rw [entryAfterTouch_trained]⟩

/-- C5 counterexample: the database holds user `a`, the directory holds
only `a_encoding.npy_encoding.npy` — a file matching `a`'s prefix
convention, so `a` is present in both sources — yet the listing marks `a`
trained although the encoding file `a_encoding.npy` does not exist:
trained does not reflect the presence of the encoding file. -/
theorem spec_C5_counterexample :
    get_registered_users [⟨1, "a".data, some "t1".data, none, 5⟩]
        ["a_encoding.npy_encoding.npy".data]
      = [⟨"a".data, true, some "t1".data, none, 5⟩] ∧
    ["a_encoding.npy_encoding.npy".data].contains ("a".data ++ encE) = false ∧
    matchFile "a".data "a_encoding.npy_encoding.npy".data = true := by
  refine ⟨by decide, by decide, by decide⟩

/-- C5 witness: user `b` only in the database keeps its row fields with
trained false; user `a` only on disk appears trained with null fields. -/
theorem spec_C5_witness :
    dictFind (get_registered_users
        [⟨1, "b".data, some "c".data, some "d".data, 3⟩]
        ["a_1.jpg".data, "a_encoding.npy".data]) "b".data
      = some ⟨"b".data, false, some "c".data, some "d".data, 3⟩ ∧
    dictFind (get_registered_users
        [⟨1, "b".data, some "c".data, some "d".data, 3⟩]
        ["a_1.jpg".data, "a_encoding.npy".data]) "a".data
      = some ⟨"a".data, true, none, none, 0⟩ := by
  have h := spec_C5 [⟨1, "b".data, some "c".data, some "d".data, 3⟩]
    ["a_1.jpg".data, "a_encoding.npy".data]
  exact ⟨h.2.1 "b".data ⟨1, "b".data, some "c".data, some "d".data, 3⟩
      (by decide) (by decide),
    h.2.2.1 "a".data (by decide) (by decide) (by decide)⟩

end Dashboard
